import Mathlib

/-!
Verification of `build_json.py`: a scanner that walks two per-language
directory trees, collects files named `case<digits>.html` inside
directories named `video<digits>`, and assembles a JSON index document.

The Python source is shallowly embedded below: directory listings become
explicit lists of entries, `pathlib` paths become lists of components,
Python's stable `sort` becomes a stable insertion sort, the two regexes
(`re.search`) become leftmost-match functions on character lists, and the
`glob` prefilters become the corresponding name predicates.
-/

namespace BuildIndex

/-! ### Generic list machinery

`isInit` models list/string prefix tests, `clLt` models Python's
lexicographic comparison of strings by code point, and `insertLe`/`sortLe`
model Python's stable `sorted`/`list.sort`. -/

def isInit [DecidableEq α] : List α → List α → Bool
  | [], _ => true
  | _ :: _, [] => false
  | a :: as, b :: bs => decide (a = b) && isInit as bs

def clLt : List Char → List Char → Bool
  | _, [] => false
  | [], _ :: _ => true
  | a :: as, b :: bs =>
    decide (a.toNat < b.toNat) || (decide (a.toNat = b.toNat) && clLt as bs)

def strLeB (a b : String) : Bool := !(clLt b.data a.data)

def insertLe (le : α → α → Bool) (x : α) : List α → List α
  | [] => [x]
  | a :: l => if le a x then a :: insertLe le x l else x :: a :: l

def sortLe (le : α → α → Bool) (l : List α) : List α :=
  l.foldl (fun acc x => insertLe le x acc) []

/-! ### Data model

A `CaseRec` is one discovered result file (`{case, filename, relpath}`).
A `FileEnt` is an immediate child of a video directory, with its
`is_file()` status.  A `DirEnt` is an immediate child of a base directory,
with its `is_dir()` status and its own immediate children.  A `BaseState`
is the file-system state at one per-language base path:
`absent` (`exists()` is false), `nonDir` (`exists()` is true but the path
is not a directory; `pathlib`'s `_Selector.select_from` then returns an
empty iterator because of its `is_dir` pre-check), `present entries`
(a directory with the given children), or `faulty` (a directory whose
scan hits an uncaught `OSError`, e.g. a `stat` failure inside `is_dir`;
the exception propagates out of `scan_language`). -/

structure CaseRec where
  caseNum : Nat
  filename : String
  relpath : String
deriving DecidableEq, Repr

structure FileEnt where
  name : String
  isFile : Bool
deriving DecidableEq, Repr

structure DirEnt where
  name : String
  isDir : Bool
  files : List FileEnt
deriving DecidableEq, Repr

inductive BaseState where
  | absent
  | nonDir
  | present (entries : List DirEnt)
  | faulty
deriving DecidableEq, Repr

/-! ### The two regexes, as leftmost-match searches

`VIDEO_DIR_RE = re.compile(r"video(\d+)$")`, used with `.search`: the
match may start anywhere, the digit run is greedy and must reach the end
of the name.  `CASE_FILE_RE = re.compile(r"case(\d+)\.html$", re.IGNORECASE)`,
also used with `.search`.  `int(group(1))` becomes `digitsVal`. -/

def digitsVal (ds : List Char) : Nat :=
  ds.foldl (fun n c => 10 * n + (c.toNat - 48)) 0

def matchVideoAt : List Char → Option (List Char)
  | 'v' :: 'i' :: 'd' :: 'e' :: 'o' :: rest =>
    if rest.isEmpty then none
    else if rest.all Char.isDigit then some rest else none
  | _ => none

def videoSearch : List Char → Option Nat
  | [] => none
  | c :: cs =>
    match matchVideoAt (c :: cs) with
    | some ds => some (digitsVal ds)
    | none => videoSearch cs

def eqCI (a b : Char) : Bool := a.toLower == b.toLower

def isHtmlCI : List Char → Bool
  | [a, b, c, d, e] =>
    eqCI a '.' && eqCI b 'h' && eqCI c 't' && eqCI d 'm' && eqCI e 'l'
  | _ => false

def matchCaseAt : List Char → Option (List Char)
  | c1 :: c2 :: c3 :: c4 :: rest =>
    if eqCI c1 'c' && eqCI c2 'a' && eqCI c3 's' && eqCI c4 'e' then
      let ds := rest.takeWhile Char.isDigit
      if ds.isEmpty then none
      else if isHtmlCI (rest.drop ds.length) then some ds else none
    else none
  | _ => none

def caseSearch : List Char → Option Nat
  | [] => none
  | c :: cs =>
    match matchCaseAt (c :: cs) with
    | some ds => some (digitsVal ds)
    | none => caseSearch cs

/-! ### The two glob prefilters

`base_dir.glob("video*")` keeps names starting with the literal `video`;
`video_dir.glob("case*.html")` keeps names of the shape
`case` ++ anything ++ `.html` (both fixed parts literal and
case-sensitive on a POSIX file system). -/

def globVideo (name : String) : Bool := isInit "video".data name.data

def globCaseHtml (name : String) : Bool :=
  isInit "case".data name.data && isInit ".html".data.reverse name.data.reverse
    && decide (9 ≤ name.data.length)

/-! ### Paths

A `pathlib` path is modelled by its list of components.
`parentPath` is `.parent`, `relativeTo` is `.relative_to` (which fails
unless the argument is an ancestor), `asPosix` is `.as_posix()`. -/

def parentPath (p : List String) : List String := p.dropLast

def relativeTo (anc p : List String) : Option (List String) :=
  if isInit anc p then some (p.drop anc.length) else none

def asPosix (l : List String) : String := String.intercalate "/" l

def relpathOf (base : List String) (vname fname : String) : String :=
  asPosix ((relativeTo (parentPath (parentPath base)) (base ++ [vname, fname])).getD [])

/-! ### The scanner (`scan_language`)

`scanFiles` is the inner loop over `sorted(video_dir.glob("case*.html"))`;
`scanStep`/`scanEntries` is the outer loop over
`sorted(base_dir.glob("video*"))`, writing into the Python dict `out`
(insertion-ordered, assignment to an existing key overwrites its value). -/

def fileRec (base : List String) (vname : String) (f : FileEnt) : Option CaseRec :=
  if f.isFile then
    match caseSearch f.name.data with
    | some n =>
      some { caseNum := n, filename := f.name, relpath := relpathOf base vname f.name }
    | none => none
  else none

def scanFiles (base : List String) (vname : String) (files : List FileEnt) :
    List CaseRec :=
  sortLe (fun r s => decide (r.caseNum ≤ s.caseNum))
    ((sortLe (fun a b => strLeB a.name b.name)
        (files.filter (fun f => globCaseHtml f.name))).filterMap (fileRec base vname))

def dictInsert (k : Nat) (v : List CaseRec) (d : List (Nat × List CaseRec)) :
    List (Nat × List CaseRec) :=
  if d.any (fun p => decide (p.1 = k)) then
    d.map (fun p => if p.1 = k then (k, v) else p)
  else d ++ [(k, v)]

def scanStep (base : List String) (out : List (Nat × List CaseRec)) (e : DirEnt) :
    List (Nat × List CaseRec) :=
  if e.isDir then
    match videoSearch e.name.data with
    | some vnum =>
      if (scanFiles base e.name e.files).isEmpty then out
      else dictInsert vnum (scanFiles base e.name e.files) out
    | none => out
  else out

def scanEntries (base : List String) (entries : List DirEnt) :
    List (Nat × List CaseRec) :=
  (sortLe (fun a b => strLeB a.name b.name)
      (entries.filter (fun e => globVideo e.name))).foldl (scanStep base) []

def scan_language (base : List String) (st : BaseState) :
    Except Unit (List (Nat × List CaseRec)) :=
  match st with
  | .absent => .ok []
  | .nonDir => .ok []
  | .present entries => .ok (scanEntries base entries)
  | .faulty => .error ()

/-! ### The assembler and writer effects (`main`)

The payload's `counts.<lang>` sums the list lengths of the scan result;
`videos.<lang>` is the scan dict sorted ascending by its integer keys and
rendered with decimal string keys (`{str(k): v for k, v in sorted(m.items())}`).
`main` creates the output file's parent directories (`mkdir(parents=True,
exist_ok=True)`) before the scans, and only then scans and writes. -/

structure Doc where
  countsEn : Nat
  countsJa : Nat
  videosEn : List (String × List CaseRec)
  videosJa : List (String × List CaseRec)
deriving DecidableEq, Repr

def sortItems (m : List (Nat × List CaseRec)) : List (Nat × List CaseRec) :=
  sortLe (fun p q => decide (p.1 ≤ q.1)) m

def stringifyItems (m : List (Nat × List CaseRec)) : List (String × List CaseRec) :=
  (sortItems m).map (fun p => (toString p.1, p.2))

def buildDoc (enMap jaMap : List (Nat × List CaseRec)) : Doc :=
  { countsEn := (enMap.map (fun p => p.2.length)).sum
    countsJa := (jaMap.map (fun p => p.2.length)).sum
    videosEn := stringifyItems enMap
    videosJa := stringifyItems jaMap }

def build (baseEn baseJa : List String) (stEn stJa : BaseState) :
    Except Unit Doc :=
  match scan_language baseEn stEn with
  | .error e => .error e
  | .ok enMap =>
    match scan_language baseJa stJa with
    | .error e => .error e
    | .ok jaMap => .ok (buildDoc enMap jaMap)

inductive FsEffect where
  | mkdirParents (p : List String)
  | writeFile (p : List String)
deriving DecidableEq, Repr

def mainEffects (baseEn baseJa outPath : List String) (stEn stJa : BaseState) :
    List FsEffect × Bool :=
  let pre := [FsEffect.mkdirParents (parentPath outPath)]
  match scan_language baseEn stEn with
  | .error _ => (pre, false)
  | .ok _ =>
    match scan_language baseJa stJa with
    | .error _ => (pre, false)
    | .ok _ => (pre ++ [FsEffect.writeFile outPath], true)

def lookupV (k : Nat) : List (Nat × List CaseRec) → Option (List CaseRec)
  | [] => none
  | p :: d => if p.1 = k then some p.2 else lookupV k d


/-! ### Overwrite semantics of the outer fold (for claim C10)

`contribV base v e` is the value entry `e` would store under key `v`
during the outer loop; `lastContrib` is the value left in the dict after
all entries ran, the later entries taking precedence, exactly as
assignment to an existing Python dict key overwrites its value. -/

def contribV (base : List String) (v : Nat) (e : DirEnt) : Option (List CaseRec) :=
  if e.isDir then
    match videoSearch e.name.data with
    | some w =>
      if w = v then
        if (scanFiles base e.name e.files).isEmpty then none
        else some (scanFiles base e.name e.files)
      else none
    | none => none
  else none

def lastContrib (base : List String) (v : Nat) : List DirEnt → Option (List CaseRec)
  | [] => none
  | e :: P =>
    match lastContrib base v P with
    | some cs => some cs
    | none => contribV base v e


/-! ### Generic lemmas about the sort and the orders -/

theorem mem_insertLe (le : α → α → Bool) (x b : α) :
    ∀ l : List α, b ∈ insertLe le x l ↔ b = x ∨ b ∈ l := by
  intro l
  induction l with
  | nil => simp [insertLe]
  | cons a l ih =>
    cases hle : le a x with
    | true =>
      simp only [insertLe, hle, if_true, List.mem_cons, ih]
      tauto
    | false =>
      simp [insertLe, hle, List.mem_cons]

theorem perm_insertLe (le : α → α → Bool) (x : α) :
    ∀ l : List α, (insertLe le x l).Perm (x :: l) := by
  intro l
  induction l with
  | nil => exact List.Perm.refl _
  | cons a l ih =>
    cases hle : le a x with
    | true =>
      simp only [insertLe, hle, if_true]
      exact (ih.cons a).trans (List.Perm.swap x a l)
    | false =>
      have hrw : insertLe le x (a :: l) = x :: a :: l := by simp [insertLe, hle]
      rw [hrw]

theorem perm_foldl_insertLe (le : α → α → Bool) :
    ∀ l acc : List α,
      (l.foldl (fun acc x => insertLe le x acc) acc).Perm (acc ++ l) := by
  intro l
  induction l with
  | nil => intro acc; simp
  | cons x l ih =>
    intro acc
    have h1 := ih (insertLe le x acc)
    have h2 : (insertLe le x acc ++ l).Perm ((x :: acc) ++ l) :=
      List.Perm.append_right l (perm_insertLe le x acc)
    have h3 : ((x :: acc) ++ l).Perm (acc ++ x :: l) := by
      have hm : (acc ++ x :: l).Perm (x :: (acc ++ l)) := List.perm_middle
      simpa using hm.symm
    exact ((h1.trans h2).trans h3)

theorem perm_sortLe (le : α → α → Bool) (l : List α) : (sortLe le l).Perm l := by
  simpa using perm_foldl_insertLe le l []

theorem mem_sortLe (le : α → α → Bool) (l : List α) (a : α) :
    a ∈ sortLe le l ↔ a ∈ l :=
  (perm_sortLe le l).mem_iff

theorem pairwise_insertLe (le : α → α → Bool) (R : α → α → Prop)
    (htot : ∀ a b, le a b = true ∨ le b a = true)
    (htr : ∀ a b c, le a b = true → le b c = true → le a c = true)
    (x : α) :
    ∀ l : List α,
      l.Pairwise (fun a b => le a b = true ∧ (le b a = true → R a b)) →
      (∀ a ∈ l, R a x) →
      (insertLe le x l).Pairwise
        (fun a b => le a b = true ∧ (le b a = true → R a b)) := by
  intro l
  induction l with
  | nil => intro _ _; simp [insertLe]
  | cons a l ih =>
    intro hp hr
    cases hle : le a x with
    | true =>
      simp only [insertLe, hle, if_true]
      refine List.pairwise_cons.mpr ⟨?_, ?_⟩
      · intro b hb
        rcases (mem_insertLe le x b l).mp hb with rfl | hbl
        · exact ⟨hle, fun _ => hr a (List.mem_cons_self a l)⟩
        · exact (List.pairwise_cons.mp hp).1 b hbl
      · exact ih (List.pairwise_cons.mp hp).2
          (fun b hb => hr b (List.mem_cons_of_mem a hb))
    | false =>
      have hrw : insertLe le x (a :: l) = x :: a :: l := by simp [insertLe, hle]
      rw [hrw]
      refine List.pairwise_cons.mpr ⟨?_, hp⟩
      intro b hb
      have hxa : le x a = true := by
        rcases htot a x with h | h
        · simp [h] at hle
        · exact h
      rcases List.mem_cons.mp hb with rfl | hbl
      · exact ⟨hxa, fun h => by simp [h] at hle⟩
      · have hab : le a b = true := ((List.pairwise_cons.mp hp).1 b hbl).1
        refine ⟨htr x a b hxa hab, fun hbx => ?_⟩
        have hax : le a x = true := htr a b x hab hbx
        simp [hax] at hle

theorem pairwise_foldl_insertLe (le : α → α → Bool) (R : α → α → Prop)
    (htot : ∀ a b, le a b = true ∨ le b a = true)
    (htr : ∀ a b c, le a b = true → le b c = true → le a c = true) :
    ∀ l acc : List α,
      acc.Pairwise (fun a b => le a b = true ∧ (le b a = true → R a b)) →
      (∀ a ∈ acc, ∀ x ∈ l, R a x) →
      l.Pairwise R →
      (l.foldl (fun acc x => insertLe le x acc) acc).Pairwise
        (fun a b => le a b = true ∧ (le b a = true → R a b)) := by
  intro l
  induction l with
  | nil => intro acc hacc _ _; simpa using hacc
  | cons x l ih =>
    intro acc hacc hcross hl
    have hacc2 := pairwise_insertLe le R htot htr x acc hacc
      (fun a ha => hcross a ha x (List.mem_cons_self x l))
    refine ih (insertLe le x acc) hacc2 ?_ (List.pairwise_cons.mp hl).2
    intro a ha y hy
    rcases (mem_insertLe le x a acc).mp ha with rfl | haacc
    · exact (List.pairwise_cons.mp hl).1 y hy
    · exact hcross a haacc y (List.mem_cons_of_mem x hy)

theorem pairwise_true (l : List α) : l.Pairwise (fun _ _ => True) := by
  induction l with
  | nil => exact List.Pairwise.nil
  | cons a l ih => exact List.pairwise_cons.mpr ⟨fun _ _ => trivial, ih⟩

theorem pairwise_sortLe (le : α → α → Bool) (R : α → α → Prop)
    (htot : ∀ a b, le a b = true ∨ le b a = true)
    (htr : ∀ a b c, le a b = true → le b c = true → le a c = true)
    (l : List α) (hR : l.Pairwise R) :
    (sortLe le l).Pairwise
      (fun a b => le a b = true ∧ (le b a = true → R a b)) :=
  pairwise_foldl_insertLe le R htot htr l [] List.Pairwise.nil (by simp) hR

theorem sorted_sortLe (le : α → α → Bool)
    (htot : ∀ a b, le a b = true ∨ le b a = true)
    (htr : ∀ a b c, le a b = true → le b c = true → le a c = true)
    (l : List α) :
    (sortLe le l).Pairwise (fun a b => le a b = true) :=
  (pairwise_sortLe le (fun _ _ => True) htot htr l (pairwise_true l)).imp
    (fun h => h.1)

/-! ### Properties of the code-point order -/

theorem clLt_irrefl : ∀ l : List Char, clLt l l = false := by
  intro l
  induction l with
  | nil => rfl
  | cons a as ih => simp [clLt, ih]

theorem clLt_asym : ∀ a b : List Char, clLt a b = true → clLt b a = true → False := by
  intro a
  induction a with
  | nil => intro b h1 h2; cases b <;> simp [clLt] at h1 h2
  | cons a as ih =>
    intro b h1 h2
    cases b with
    | nil => simp [clLt] at h1
    | cons b bs =>
      simp only [clLt, Bool.or_eq_true, Bool.and_eq_true, decide_eq_true_eq] at h1 h2
      rcases h1 with h1 | ⟨h1e, h1r⟩
      · rcases h2 with h2 | ⟨h2e, _⟩ <;> omega
      · rcases h2 with h2 | ⟨_, h2r⟩
        · omega
        · exact ih bs h1r h2r

theorem clLt_cotrans :
    ∀ a b c : List Char, clLt a c = true → clLt a b = true ∨ clLt b c = true := by
  intro a
  induction a with
  | nil =>
    intro b c hac
    cases c with
    | nil => simp [clLt] at hac
    | cons c cs =>
      cases b with
      | nil => right; exact hac
      | cons b bs => left; simp [clLt]
  | cons a as ih =>
    intro b c hac
    cases c with
    | nil => simp [clLt] at hac
    | cons c cs =>
      cases b with
      | nil => right; simp [clLt]
      | cons b bs =>
        simp only [clLt, Bool.or_eq_true, Bool.and_eq_true, decide_eq_true_eq] at hac ⊢
        rcases hac with hlt | ⟨heq, hrec⟩
        · by_cases hab : a.toNat < b.toNat
          · left; left; exact hab
          · right; left; omega
        · by_cases hab : a.toNat < b.toNat
          · left; left; exact hab
          · by_cases hba : b.toNat < a.toNat
            · right; left; omega
            · have heq2 : a.toNat = b.toNat := by omega
              rcases ih bs cs hrec with h | h
              · left; right; exact ⟨heq2, h⟩
              · right; right; exact ⟨by omega, h⟩

theorem strLeB_total (a b : String) : strLeB a b = true ∨ strLeB b a = true := by
  by_cases h1 : clLt b.data a.data = true
  · right
    simp only [strLeB, Bool.not_eq_true']
    cases h2 : clLt a.data b.data
    · rfl
    · exact absurd (clLt_asym _ _ h1 h2) (fun h => h)
  · left
    simp only [strLeB, Bool.not_eq_true']
    exact Bool.not_eq_true _ ▸ (by revert h1; cases clLt b.data a.data <;> simp)

theorem strLeB_trans (a b c : String) :
    strLeB a b = true → strLeB b c = true → strLeB a c = true := by
  simp only [strLeB, Bool.not_eq_true']
  intro hba hcb
  cases hca : clLt c.data a.data with
  | false => rfl
  | true =>
    rcases clLt_cotrans c.data b.data a.data hca with h | h
    · rw [h] at hcb; cases hcb
    · rw [h] at hba; cases hba

/-! ### Small facts about the comparators -/

theorem decideLeNat_total (f : α → Nat) (a b : α) :
    decide (f a ≤ f b) = true ∨ decide (f b ≤ f a) = true := by
  rcases Nat.le_total (f a) (f b) with h | h
  · exact Or.inl (decide_eq_true h)
  · exact Or.inr (decide_eq_true h)

theorem decideLeNat_trans (f : α → Nat) (a b c : α) :
    decide (f a ≤ f b) = true → decide (f b ≤ f c) = true →
    decide (f a ≤ f c) = true := by
  intro h1 h2
  exact decide_eq_true (Nat.le_trans (of_decide_eq_true h1) (of_decide_eq_true h2))

theorem strLeBOn_total (g : α → String) (a b : α) :
    strLeB (g a) (g b) = true ∨ strLeB (g b) (g a) = true :=
  strLeB_total _ _

theorem strLeBOn_trans (g : α → String) (a b c : α) :
    strLeB (g a) (g b) = true → strLeB (g b) (g c) = true →
    strLeB (g a) (g c) = true :=
  strLeB_trans _ _ _

/-! ### Facts about `fileRec` and `scanFiles` -/

theorem fileRec_some (base : List String) (vname : String) (f : FileEnt) (r : CaseRec)
    (h : fileRec base vname f = some r) :
    f.isFile = true ∧ caseSearch f.name.data = some r.caseNum ∧
    r.filename = f.name ∧ r.relpath = relpathOf base vname f.name := by
  cases hf : f.isFile with
  | false => simp [fileRec, hf] at h
  | true =>
    cases hcs : caseSearch f.name.data with
    | none => simp [fileRec, hf, hcs] at h
    | some n =>
      unfold fileRec at h
      rw [if_pos hf, hcs] at h
      have hr := Option.some.inj h
      subst hr
      exact ⟨rfl, rfl, rfl, rfl⟩

theorem pairwise_scanFiles (base : List String) (vname : String) (files : List FileEnt) :
    (scanFiles base vname files).Pairwise
      (fun r s => r.caseNum ≤ s.caseNum ∧
        (r.caseNum = s.caseNum → strLeB r.filename s.filename = true)) := by
  have hnames :
      (sortLe (fun a b => strLeB a.name b.name)
        (files.filter (fun f => globCaseHtml f.name))).Pairwise
        (fun a b => strLeB a.name b.name = true) :=
    sorted_sortLe _ (strLeBOn_total (fun f : FileEnt => f.name))
      (strLeBOn_trans (fun f : FileEnt => f.name)) _
  have hrecs :
      ((sortLe (fun a b => strLeB a.name b.name)
          (files.filter (fun f => globCaseHtml f.name))).filterMap
          (fileRec base vname)).Pairwise
        (fun r s => strLeB r.filename s.filename = true) := by
    rw [List.pairwise_filterMap]
    refine hnames.imp ?_
    intro a b hab r hr s hs
    obtain ⟨_, _, hrn, _⟩ := fileRec_some base vname a r hr
    obtain ⟨_, _, hsn, _⟩ := fileRec_some base vname b s hs
    rw [hrn, hsn]
    exact hab
  have hs := pairwise_sortLe (fun r s : CaseRec => decide (r.caseNum ≤ s.caseNum))
    (fun r s => strLeB r.filename s.filename = true)
    (decideLeNat_total (fun r : CaseRec => r.caseNum))
    (decideLeNat_trans (fun r : CaseRec => r.caseNum)) _ hrecs
  refine hs.imp ?_
  intro r s hrs
  refine ⟨of_decide_eq_true hrs.1, fun heq => hrs.2 (decide_eq_true ?_)⟩
  omega

theorem mem_scanFiles_inv (base : List String) (vname : String)
    (files : List FileEnt) (r : CaseRec) (h : r ∈ scanFiles base vname files) :
    ∃ f, f ∈ files ∧ f.isFile = true ∧ globCaseHtml f.name = true ∧
      caseSearch f.name.data = some r.caseNum ∧ r.filename = f.name ∧
      r.relpath = relpathOf base vname f.name := by
  rw [scanFiles, mem_sortLe] at h
  rcases List.mem_filterMap.mp h with ⟨f, hf, hfr⟩
  rw [mem_sortLe] at hf
  rcases List.mem_filter.mp hf with ⟨hmem, hglob⟩
  obtain ⟨hisf, hcs, hname, hrel⟩ := fileRec_some base vname f r hfr
  exact ⟨f, hmem, hisf, hglob, hcs, hname, hrel⟩

theorem mem_scanFiles_of (base : List String) (vname : String)
    (files : List FileEnt) (f : FileEnt) (n : Nat) (hmem : f ∈ files)
    (hf : f.isFile = true) (hg : globCaseHtml f.name = true)
    (hc : caseSearch f.name.data = some n) :
    CaseRec.mk n f.name (relpathOf base vname f.name) ∈ scanFiles base vname files := by
  rw [scanFiles, mem_sortLe]
  refine List.mem_filterMap.mpr ⟨f, ?_, ?_⟩
  · rw [mem_sortLe]
    exact List.mem_filter.mpr ⟨hmem, hg⟩
  · simp [fileRec, hf, hc]

/-! ### Facts about the dict and the outer fold -/

theorem mem_dictInsert (k : Nat) (cs : List CaseRec) (d : List (Nat × List CaseRec))
    (x : Nat × List CaseRec) (h : x ∈ dictInsert k cs d) : x = (k, cs) ∨ x ∈ d := by
  unfold dictInsert at h
  by_cases hany : d.any (fun p => decide (p.1 = k)) = true
  · rw [if_pos hany] at h
    rcases List.mem_map.mp h with ⟨p, hp, hpx⟩
    by_cases hpk : p.1 = k
    · left; rw [← hpx, if_pos hpk]
    · right; rw [← hpx, if_neg hpk]; exact hp
  · rw [if_neg hany] at h
    rcases List.mem_append.mp h with h | h
    · exact Or.inr h
    · exact Or.inl (List.mem_singleton.mp h)

theorem keysNe_dictInsert (k : Nat) (cs : List CaseRec)
    (d : List (Nat × List CaseRec)) (h : d.Pairwise (fun p q => p.1 ≠ q.1)) :
    (dictInsert k cs d).Pairwise (fun p q => p.1 ≠ q.1) := by
  unfold dictInsert
  by_cases hany : d.any (fun p => decide (p.1 = k)) = true
  · rw [if_pos hany, List.pairwise_map]
    refine h.imp ?_
    intro p q hpq
    by_cases hp : p.1 = k <;> by_cases hq : q.1 = k
    · exact absurd (hp.trans hq.symm) hpq
    · rw [if_pos hp, if_neg hq]; exact fun hh => hq hh.symm
    · rw [if_neg hp, if_pos hq]; exact hp
    · rw [if_neg hp, if_neg hq]; exact hpq
  · rw [if_neg hany, List.pairwise_append]
    refine ⟨h, by simp, ?_⟩
    intro p hp q hq
    rw [List.mem_singleton.mp hq]
    intro hpk
    exact hany (List.any_eq_true.mpr ⟨p, hp, decide_eq_true hpk⟩)

theorem lookupV_map_overwrite_self (k : Nat) (cs : List CaseRec) :
    ∀ d : List (Nat × List CaseRec), d.any (fun p => decide (p.1 = k)) = true →
      lookupV k (d.map (fun p => if p.1 = k then (k, cs) else p)) = some cs := by
  intro d
  induction d with
  | nil => intro hany; simp at hany
  | cons p d ih =>
    intro hany
    by_cases hp : p.1 = k
    · rw [List.map_cons, if_pos hp]
      show (if (k, cs).1 = k then some (k, cs).2 else _) = some cs
      rw [if_pos rfl]
    · rw [List.map_cons, if_neg hp]
      show (if p.1 = k then some p.2 else _) = some cs
      rw [if_neg hp]
      refine ih ?_
      rcases List.any_eq_true.mp hany with ⟨q, hq, hqk⟩
      rcases List.mem_cons.mp hq with rfl | hq2
      · exact absurd (of_decide_eq_true hqk) hp
      · exact List.any_eq_true.mpr ⟨q, hq2, hqk⟩

theorem lookupV_append_single_self (k : Nat) (cs : List CaseRec) :
    ∀ d : List (Nat × List CaseRec), (∀ p ∈ d, p.1 ≠ k) →
      lookupV k (d ++ [(k, cs)]) = some cs := by
  intro d
  induction d with
  | nil =>
    intro _
    show (if (k, cs).1 = k then some (k, cs).2 else _) = some cs
    rw [if_pos rfl]
  | cons p d ih =>
    intro hall
    rw [List.cons_append]
    show (if p.1 = k then some p.2 else _) = some cs
    rw [if_neg (hall p (List.mem_cons_self p d))]
    exact ih (fun q hq => hall q (List.mem_cons_of_mem p hq))

theorem lookupV_map_overwrite_ne (w k : Nat) (cs : List CaseRec) (hwk : w ≠ k) :
    ∀ d : List (Nat × List CaseRec),
      lookupV w (d.map (fun p => if p.1 = k then (k, cs) else p)) = lookupV w d := by
  intro d
  induction d with
  | nil => rfl
  | cons p d ih =>
    by_cases hp : p.1 = k
    · rw [List.map_cons, if_pos hp]
      show (if (k, cs).1 = w then some (k, cs).2 else _)
        = (if p.1 = w then some p.2 else _)
      rw [if_neg (fun hh : k = w => hwk hh.symm),
        if_neg (fun hh : p.1 = w => hwk (hh.symm.trans hp))]
      exact ih
    · rw [List.map_cons, if_neg hp]
      show (if p.1 = w then some p.2 else _) = (if p.1 = w then some p.2 else _)
      by_cases hpw : p.1 = w
      · rw [if_pos hpw, if_pos hpw]
      · rw [if_neg hpw, if_neg hpw]; exact ih

theorem lookupV_append_single_ne (w k : Nat) (cs : List CaseRec) (hwk : w ≠ k) :
    ∀ d : List (Nat × List CaseRec),
      lookupV w (d ++ [(k, cs)]) = lookupV w d := by
  intro d
  induction d with
  | nil =>
    show (if (k, cs).1 = w then some (k, cs).2 else lookupV w []) = none
    rw [if_neg (fun hh : k = w => hwk hh.symm)]
    rfl
  | cons p d ih =>
    rw [List.cons_append]
    show (if p.1 = w then some p.2 else _) = (if p.1 = w then some p.2 else _)
    by_cases hpw : p.1 = w
    · rw [if_pos hpw, if_pos hpw]
    · rw [if_neg hpw, if_neg hpw]; exact ih

theorem lookupV_dictInsert_self (k : Nat) (cs : List CaseRec)
    (d : List (Nat × List CaseRec)) : lookupV k (dictInsert k cs d) = some cs := by
  unfold dictInsert
  by_cases hany : d.any (fun p => decide (p.1 = k)) = true
  · rw [if_pos hany]
    exact lookupV_map_overwrite_self k cs d hany
  · rw [if_neg hany]
    refine lookupV_append_single_self k cs d ?_
    intro p hp hpk
    exact hany (List.any_eq_true.mpr ⟨p, hp, decide_eq_true hpk⟩)

theorem lookupV_dictInsert_ne (w k : Nat) (cs : List CaseRec)
    (d : List (Nat × List CaseRec)) (hwk : w ≠ k) :
    lookupV w (dictInsert k cs d) = lookupV w d := by
  unfold dictInsert
  by_cases hany : d.any (fun p => decide (p.1 = k)) = true
  · rw [if_pos hany]
    exact lookupV_map_overwrite_ne w k cs hwk d
  · rw [if_neg hany]
    exact lookupV_append_single_ne w k cs hwk d

theorem lookupV_of_mem_keysNe (d : List (Nat × List CaseRec))
    (hnd : d.Pairwise (fun p q => p.1 ≠ q.1)) (v : Nat) (cs : List CaseRec)
    (h : (v, cs) ∈ d) : lookupV v d = some cs := by
  induction d with
  | nil => cases h
  | cons p d ih =>
    rcases List.mem_cons.mp h with rfl | h2
    · simp [lookupV]
    · have hp : ¬ p.1 = v :=
        (List.pairwise_cons.mp hnd).1 (v, cs) h2
      rw [lookupV, if_neg hp]
      exact ih (List.pairwise_cons.mp hnd).2 h2

theorem mem_scanStep (base : List String) (acc : List (Nat × List CaseRec))
    (e : DirEnt) (x : Nat × List CaseRec) (h : x ∈ scanStep base acc e) :
    (e.isDir = true ∧ videoSearch e.name.data = some x.1 ∧
      x.2 = scanFiles base e.name e.files ∧
      (scanFiles base e.name e.files).isEmpty = false) ∨ x ∈ acc := by
  unfold scanStep at h
  cases hd : e.isDir with
  | false => rw [hd] at h; simp at h; exact Or.inr h
  | true =>
    rw [hd] at h; simp only [if_true] at h
    cases hv : videoSearch e.name.data with
    | none => rw [hv] at h; exact Or.inr h
    | some vnum =>
      rw [hv] at h
      cases hemp : (scanFiles base e.name e.files).isEmpty with
      | true => rw [hemp] at h; simp at h; exact Or.inr h
      | false =>
        rw [hemp] at h; simp only [Bool.false_eq_true, if_false] at h
        rcases mem_dictInsert vnum _ acc x h with rfl | h2
        · exact Or.inl ⟨rfl, rfl, rfl, rfl⟩
        · exact Or.inr h2

theorem keysNe_scanStep (base : List String) (acc : List (Nat × List CaseRec))
    (e : DirEnt) (h : acc.Pairwise (fun p q => p.1 ≠ q.1)) :
    (scanStep base acc e).Pairwise (fun p q => p.1 ≠ q.1) := by
  unfold scanStep
  cases e.isDir with
  | false => exact h
  | true =>
    simp only [if_true]
    cases videoSearch e.name.data with
    | none => exact h
    | some vnum =>
      cases (scanFiles base e.name e.files).isEmpty with
      | true => exact h
      | false =>
        simp only [Bool.false_eq_true, if_false]
        exact keysNe_dictInsert vnum _ acc h

theorem keysNe_foldl_scanStep (base : List String) :
    ∀ (P : List DirEnt) (acc : List (Nat × List CaseRec)),
      acc.Pairwise (fun p q => p.1 ≠ q.1) →
      (P.foldl (scanStep base) acc).Pairwise (fun p q => p.1 ≠ q.1) := by
  intro P
  induction P with
  | nil => intro acc h; exact h
  | cons e P ih =>
    intro acc h
    exact ih (scanStep base acc e) (keysNe_scanStep base acc e h)

theorem keysNe_scanEntries (base : List String) (entries : List DirEnt) :
    (scanEntries base entries).Pairwise (fun p q => p.1 ≠ q.1) :=
  keysNe_foldl_scanStep base _ [] List.Pairwise.nil

theorem mem_foldl_scanStep (base : List String) (entries : List DirEnt) :
    ∀ (P : List DirEnt) (acc : List (Nat × List CaseRec)),
      (∀ e ∈ P, e ∈ entries ∧ globVideo e.name = true) →
      (∀ y ∈ acc, ∃ e, e ∈ entries ∧ e.isDir = true ∧ globVideo e.name = true ∧
          videoSearch e.name.data = some y.1 ∧ y.2 = scanFiles base e.name e.files ∧
          (scanFiles base e.name e.files).isEmpty = false) →
      ∀ x ∈ P.foldl (scanStep base) acc,
        ∃ e, e ∈ entries ∧ e.isDir = true ∧ globVideo e.name = true ∧
          videoSearch e.name.data = some x.1 ∧ x.2 = scanFiles base e.name e.files ∧
          (scanFiles base e.name e.files).isEmpty = false := by
  intro P
  induction P with
  | nil => intro acc _ hacc x hx; exact hacc x hx
  | cons e P ih =>
    intro acc hP hacc x hx
    refine ih (scanStep base acc e)
      (fun d hd => hP d (List.mem_cons_of_mem e hd)) ?_ x hx
    intro y hy
    rcases mem_scanStep base acc e y hy with ⟨hd, hv, hval, hne⟩ | hy2
    · obtain ⟨hmem, hglob⟩ := hP e (List.mem_cons_self e P)
      exact ⟨e, hmem, hd, hglob, hv, hval, hne⟩
    · exact hacc y hy2

theorem mem_scanEntries_inv (base : List String) (entries : List DirEnt)
    (x : Nat × List CaseRec) (h : x ∈ scanEntries base entries) :
    ∃ e, e ∈ entries ∧ e.isDir = true ∧ globVideo e.name = true ∧
      videoSearch e.name.data = some x.1 ∧ x.2 = scanFiles base e.name e.files ∧
      (scanFiles base e.name e.files).isEmpty = false := by
  refine mem_foldl_scanStep base entries _ [] ?_ (by simp) x h
  intro e he
  rw [mem_sortLe] at he
  exact ⟨(List.mem_filter.mp he).1, (List.mem_filter.mp he).2⟩

/-! ### The relative-path computation -/

theorem isInit_take_append [DecidableEq α] :
    ∀ (l : List α) (k : Nat) (r : List α), isInit (l.take k) (l ++ r) = true := by
  intro l
  induction l with
  | nil => intro k r; cases k <;> simp [isInit]
  | cons a l ih =>
    intro k r
    cases k with
    | zero => simp [isInit]
    | succ k => simp [isInit, ih]

theorem parentPath_parentPath (p : List String) :
    parentPath (parentPath p) = p.take (p.length - 2) := by
  unfold parentPath
  rw [List.dropLast_eq_take, List.dropLast_eq_take, List.length_take, List.take_take]
  congr 1
  omega

theorem relativeTo_grandparent (base rest : List String) :
    relativeTo (parentPath (parentPath base)) (base ++ rest)
      = some (base.drop (base.length - 2) ++ rest) := by
  rw [parentPath_parentPath, relativeTo,
    if_pos (isInit_take_append base (base.length - 2) rest)]
  congr 1
  rw [List.length_take]
  have hmin : min (base.length - 2) base.length = base.length - 2 := by omega
  rw [hmin, List.drop_append_of_le_length (by omega)]

theorem relpathOf_eq (base : List String) (vname fname : String) :
    relpathOf base vname fname
      = String.intercalate "/" (base.drop (base.length - 2) ++ [vname, fname]) := by
  unfold relpathOf
  rw [relativeTo_grandparent]
  rfl

/-! ### The counts computation -/

theorem sum_lengths_stringifyItems (m : List (Nat × List CaseRec)) :
    ((stringifyItems m).map (fun p => p.2.length)).sum
      = (m.map (fun p => p.2.length)).sum := by
  unfold stringifyItems sortItems
  rw [List.map_map]
  exact ((perm_sortLe (fun p q : Nat × List CaseRec => decide (p.1 ≤ q.1)) m).map
    (fun p => p.2.length)).sum_eq

/-! ### Inversion of a successful build -/

theorem build_ok_inv (baseEn baseJa : List String) (stEn stJa : BaseState)
    (doc : Doc) (h : build baseEn baseJa stEn stJa = .ok doc) :
    ∃ m1 m2, scan_language baseEn stEn = .ok m1
      ∧ scan_language baseJa stJa = .ok m2 ∧ doc = buildDoc m1 m2 := by
  unfold build at h
  cases h1 : scan_language baseEn stEn with
  | error e => rw [h1] at h; cases h
  | ok m1 =>
    rw [h1] at h
    cases h2 : scan_language baseJa stJa with
    | error e => rw [h2] at h; cases h
    | ok m2 =>
      rw [h2] at h
      exact ⟨m1, m2, rfl, rfl, (Except.ok.inj h).symm⟩

theorem scan_ok_keysNe (base : List String) (st : BaseState)
    (m : List (Nat × List CaseRec)) (h : scan_language base st = .ok m) :
    m.Pairwise (fun p q => p.1 ≠ q.1) := by
  cases st with
  | absent => injection h with h2; subst h2; exact List.Pairwise.nil
  | nonDir => injection h with h2; subst h2; exact List.Pairwise.nil
  | present entries => injection h with h2; subst h2; exact keysNe_scanEntries base entries
  | faulty => cases h

theorem sortItems_strict_of_keysNe (m : List (Nat × List CaseRec))
    (hm : m.Pairwise (fun p q => p.1 ≠ q.1)) :
    (sortItems m).Pairwise (fun p q => p.1 < q.1) := by
  have hs := pairwise_sortLe (fun p q : Nat × List CaseRec => decide (p.1 ≤ q.1))
    (fun p q => p.1 ≠ q.1)
    (decideLeNat_total (fun p : Nat × List CaseRec => p.1))
    (decideLeNat_trans (fun p : Nat × List CaseRec => p.1)) m hm
  refine hs.imp ?_
  intro p q hpq
  have h1 := of_decide_eq_true hpq.1
  by_cases heq : p.1 = q.1
  · exact absurd heq (hpq.2 (decide_eq_true (Nat.le_of_eq heq.symm)))
  · omega

/-! ### Lemmas about the overwrite semantics -/

theorem lookupV_scanStep (base : List String) (v : Nat)
    (acc : List (Nat × List CaseRec)) (e : DirEnt) :
    lookupV v (scanStep base acc e)
      = match contribV base v e with
        | some cs => some cs
        | none => lookupV v acc := by
  cases hd : e.isDir with
  | false => simp [scanStep, contribV, hd]
  | true =>
    cases hv : videoSearch e.name.data with
    | none => simp [scanStep, contribV, hd, hv]
    | some w =>
      by_cases hw : w = v
      · subst hw
        cases hemp : (scanFiles base e.name e.files).isEmpty with
        | true => simp [scanStep, contribV, hd, hv, hemp]
        | false =>
          simp [scanStep, contribV, hd, hv, hemp,
            lookupV_dictInsert_self w (scanFiles base e.name e.files) acc]
      · cases hemp : (scanFiles base e.name e.files).isEmpty with
        | true => simp [scanStep, contribV, hd, hv, hemp, hw]
        | false =>
          simp [scanStep, contribV, hd, hv, hemp, hw,
            lookupV_dictInsert_ne v w (scanFiles base e.name e.files) acc
              (fun hh => hw hh.symm)]

theorem lookupV_foldl_scanStep (base : List String) (v : Nat) :
    ∀ (P : List DirEnt) (acc : List (Nat × List CaseRec)),
      lookupV v (P.foldl (scanStep base) acc)
        = match lastContrib base v P with
          | some cs => some cs
          | none => lookupV v acc := by
  intro P
  induction P with
  | nil => intro acc; rfl
  | cons e P ih =>
    intro acc
    show lookupV v (P.foldl (scanStep base) (scanStep base acc e)) = _
    rw [ih (scanStep base acc e), lookupV_scanStep base v acc e]
    cases hlast : lastContrib base v P with
    | some cs => simp [lastContrib, hlast]
    | none => simp [lastContrib, hlast]

theorem lastContrib_append (base : List String) (v : Nat) :
    ∀ A B : List DirEnt,
      lastContrib base v (A ++ B)
        = match lastContrib base v B with
          | some cs => some cs
          | none => lastContrib base v A := by
  intro A
  induction A with
  | nil =>
    intro B
    rw [List.nil_append]
    cases h1 : lastContrib base v B <;> simp [lastContrib, h1]
  | cons e A ih =>
    intro B
    have hstep : lastContrib base v ((e :: A) ++ B)
        = match lastContrib base v (A ++ B) with
          | some cs => some cs
          | none => contribV base v e := by
      rw [List.cons_append]
      simp only [lastContrib]
    rw [hstep, ih B]
    cases h1 : lastContrib base v B <;> rfl

theorem lastContrib_none (base : List String) (v : Nat) :
    ∀ B : List DirEnt, (∀ e ∈ B, contribV base v e = none) →
      lastContrib base v B = none := by
  intro B
  induction B with
  | nil => intro _; rfl
  | cons e B ih =>
    intro h
    simp only [lastContrib, ih (fun x hx => h x (List.mem_cons_of_mem e hx)),
      h e (List.mem_cons_self e B)]

theorem contribV_ne_none (base : List String) (v : Nat) (e : DirEnt)
    (h : ¬ contribV base v e = none) :
    e.isDir = true ∧ videoSearch e.name.data = some v := by
  cases hd : e.isDir with
  | false => exact absurd (by simp [contribV, hd]) h
  | true =>
    cases hv : videoSearch e.name.data with
    | none => exact absurd (by simp [contribV, hd, hv]) h
    | some w =>
      by_cases hw : w = v
      · exact ⟨rfl, by rw [hw]⟩
      · exact absurd (by simp [contribV, hd, hv, hw]) h

/-! ### Claim theorems -/

/-- Claim C1 (code bug): in the scenario where `base_en` holds exactly
`video2/case01.html` and `video2/case2.html` and `base_ja` does not exist,
the assembled document has `counts.en = 2`, `counts.ja = 0`,
`videos.ja = {}` and a single group `"2"` with the two records in order —
but the records' `relpath` values are relative to the grandparent of
`base_en` (`r/result`), i.e. `result_en/html/video2/...`, not the
`result/result_en/html/video2/...` the claim (and the code's own
comment, which promises repo-root-relative paths) states. -/
theorem C1_scenario_eval :
    build ["r", "result", "result_en", "html"] ["r", "result", "result_ja", "html"]
      (.present [⟨"video2", true, [⟨"case01.html", true⟩, ⟨"case2.html", true⟩]⟩])
      .absent
    = .ok
      { countsEn := 2
        countsJa := 0
        videosEn := [("2",
          [⟨1, "case01.html", "result_en/html/video2/case01.html"⟩,
           ⟨2, "case2.html", "result_en/html/video2/case2.html"⟩])]
        videosJa := [] } := by
  rfl

/-- Claim C2: for every file-system state, the assembled document's
`counts.<lang>` equals the sum of the lengths of the lists stored under
`videos.<lang>`, for both languages. -/
theorem C2_counts_consistent (baseEn baseJa : List String) (stEn stJa : BaseState)
    (doc : Doc) (h : build baseEn baseJa stEn stJa = .ok doc) :
    doc.countsEn = (doc.videosEn.map (fun p => p.2.length)).sum
    ∧ doc.countsJa = (doc.videosJa.map (fun p => p.2.length)).sum := by
  obtain ⟨m1, m2, _, _, rfl⟩ := build_ok_inv baseEn baseJa stEn stJa doc h
  exact ⟨(sum_lengths_stringifyItems m1).symm, (sum_lengths_stringifyItems m2).symm⟩

/-- Witness for C2 at the concrete two-file scenario. -/
theorem C2_counts_consistent_witness :
    (buildDoc (scanEntries ["r", "result", "result_en", "html"]
        [⟨"video2", true, [⟨"case01.html", true⟩, ⟨"case2.html", true⟩]⟩]) []).countsEn
      = ((buildDoc (scanEntries ["r", "result", "result_en", "html"]
          [⟨"video2", true, [⟨"case01.html", true⟩, ⟨"case2.html", true⟩]⟩]) []).videosEn.map
            (fun p => p.2.length)).sum
    ∧ (buildDoc (scanEntries ["r", "result", "result_en", "html"]
        [⟨"video2", true, [⟨"case01.html", true⟩, ⟨"case2.html", true⟩]⟩]) []).countsJa
      = ((buildDoc (scanEntries ["r", "result", "result_en", "html"]
          [⟨"video2", true, [⟨"case01.html", true⟩, ⟨"case2.html", true⟩]⟩]) []).videosJa.map
            (fun p => p.2.length)).sum :=
  C2_counts_consistent ["r", "result", "result_en", "html"]
    ["r", "result", "result_ja", "html"]
    (.present [⟨"video2", true, [⟨"case01.html", true⟩, ⟨"case2.html", true⟩]⟩])
    .absent _ rfl

/-- Claim C3: every video group produced by the scan is sorted
non-decreasingly by case number, ties (equal case numbers) are kept in
lexicographic filename order; and (second conjunct) `case1.html` and
`case01.html` coexisting are both retained, not deduplicated, ordered by
filename. -/
theorem C3_group_order :
    (∀ (base : List String) (entries : List DirEnt) (v : Nat) (recs : List CaseRec),
        (v, recs) ∈ scanEntries base entries →
        recs.Pairwise (fun r s => r.caseNum ≤ s.caseNum ∧
          (r.caseNum = s.caseNum → strLeB r.filename s.filename = true)))
    ∧ scanFiles ["a", "b"] "video1" [⟨"case1.html", true⟩, ⟨"case01.html", true⟩]
      = [⟨1, "case01.html", "a/b/video1/case01.html"⟩,
         ⟨1, "case1.html", "a/b/video1/case1.html"⟩] := by
  constructor
  · intro base entries v recs h
    obtain ⟨e, _, _, _, _, hval, _⟩ := mem_scanEntries_inv base entries (v, recs) h
    have hval2 : recs = scanFiles base e.name e.files := hval
    rw [hval2]
    exact pairwise_scanFiles base e.name e.files
  · rfl

/-- Witness for the universally quantified part of C3 at a concrete group. -/
theorem C3_group_order_witness :
    ([⟨1, "case01.html", "a/b/video1/case01.html"⟩,
      ⟨1, "case1.html", "a/b/video1/case1.html"⟩] : List CaseRec).Pairwise
      (fun r s => r.caseNum ≤ s.caseNum ∧
        (r.caseNum = s.caseNum → strLeB r.filename s.filename = true)) :=
  C3_group_order.1 ["a", "b"]
    [⟨"video1", true, [⟨"case1.html", true⟩, ⟨"case01.html", true⟩]⟩] 1 _
    (by decide)

/-- Claim C4: every record's `relpath` is the file's path relative to the
grandparent of the per-language base directory, joined with forward
slashes: `relative_to` succeeds on that ancestor and yields the final two
base components followed by the video directory and the filename. -/
theorem C4_relpath_grandparent (base : List String) (entries : List DirEnt)
    (v : Nat) (recs : List CaseRec) (r : CaseRec)
    (hmem : (v, recs) ∈ scanEntries base entries) (hr : r ∈ recs) :
    ∃ vname,
      relativeTo (parentPath (parentPath base)) (base ++ [vname, r.filename])
        = some (base.drop (base.length - 2) ++ [vname, r.filename])
      ∧ r.relpath
        = String.intercalate "/" (base.drop (base.length - 2) ++ [vname, r.filename]) := by
  obtain ⟨e, _, _, _, _, hval, _⟩ := mem_scanEntries_inv base entries (v, recs) hmem
  have hval2 : recs = scanFiles base e.name e.files := hval
  rw [hval2] at hr
  obtain ⟨f, _, _, _, _, hname, hrel⟩ := mem_scanFiles_inv base e.name e.files r hr
  refine ⟨e.name, ?_, ?_⟩
  · rw [hname]
    exact relativeTo_grandparent base [e.name, f.name]
  · rw [hrel, hname, relpathOf_eq]

/-- Witness for C4 at a concrete scan. -/
theorem C4_relpath_grandparent_witness :
    ∃ vname,
      relativeTo (parentPath (parentPath ["r", "result", "result_en", "html"]))
          (["r", "result", "result_en", "html"] ++ [vname,
            (CaseRec.mk 1 "case01.html" "result_en/html/video2/case01.html").filename])
        = some ((["r", "result", "result_en", "html"].drop
            (["r", "result", "result_en", "html"].length - 2)) ++ [vname,
            (CaseRec.mk 1 "case01.html" "result_en/html/video2/case01.html").filename])
      ∧ (CaseRec.mk 1 "case01.html" "result_en/html/video2/case01.html").relpath
        = String.intercalate "/" ((["r", "result", "result_en", "html"].drop
            (["r", "result", "result_en", "html"].length - 2)) ++ [vname,
            (CaseRec.mk 1 "case01.html" "result_en/html/video2/case01.html").filename]) :=
  C4_relpath_grandparent ["r", "result", "result_en", "html"]
    [⟨"video2", true, [⟨"case01.html", true⟩, ⟨"case2.html", true⟩]⟩] 2
    [⟨1, "case01.html", "result_en/html/video2/case01.html"⟩,
     ⟨2, "case2.html", "result_en/html/video2/case2.html"⟩]
    (CaseRec.mk 1 "case01.html" "result_en/html/video2/case01.html")
    (by decide) (by decide)

/-- Claim C5: in every assembled document, each per-language `videos`
mapping renders decimal string keys in ascending numeric order (the
mapping is the string image of an integer-keyed list that is strictly
increasing); in particular (second conjunct) with `video9` and `video10`
both present, key `"9"` precedes key `"10"`. -/
theorem C5_numeric_key_order :
    (∀ (baseEn baseJa : List String) (stEn stJa : BaseState) (doc : Doc),
        build baseEn baseJa stEn stJa = .ok doc →
        (∃ l : List (Nat × List CaseRec),
            doc.videosEn = l.map (fun p => (toString p.1, p.2))
            ∧ l.Pairwise (fun p q => p.1 < q.1))
        ∧ (∃ l : List (Nat × List CaseRec),
            doc.videosJa = l.map (fun p => (toString p.1, p.2))
            ∧ l.Pairwise (fun p q => p.1 < q.1)))
    ∧ (buildDoc (scanEntries ["r"]
          [⟨"video10", true, [⟨"case1.html", true⟩]⟩,
           ⟨"video9", true, [⟨"case1.html", true⟩]⟩]) []).videosEn.map (fun p => p.1)
      = ["9", "10"] := by
  constructor
  · intro baseEn baseJa stEn stJa doc h
    obtain ⟨m1, m2, h1, h2, rfl⟩ := build_ok_inv baseEn baseJa stEn stJa doc h
    constructor
    · exact ⟨sortItems m1, rfl,
        sortItems_strict_of_keysNe m1 (scan_ok_keysNe baseEn stEn m1 h1)⟩
    · exact ⟨sortItems m2, rfl,
        sortItems_strict_of_keysNe m2 (scan_ok_keysNe baseJa stJa m2 h2)⟩
  · rfl

/-- Witness for the universally quantified part of C5. -/
theorem C5_numeric_key_order_witness :
    (∃ l : List (Nat × List CaseRec),
        (buildDoc (scanEntries ["r"]
            [⟨"video10", true, [⟨"case1.html", true⟩]⟩,
             ⟨"video9", true, [⟨"case1.html", true⟩]⟩]) []).videosEn
          = l.map (fun p => (toString p.1, p.2))
        ∧ l.Pairwise (fun p q => p.1 < q.1))
    ∧ (∃ l : List (Nat × List CaseRec),
        (buildDoc (scanEntries ["r"]
            [⟨"video10", true, [⟨"case1.html", true⟩]⟩,
             ⟨"video9", true, [⟨"case1.html", true⟩]⟩]) []).videosJa
          = l.map (fun p => (toString p.1, p.2))
        ∧ l.Pairwise (fun p q => p.1 < q.1)) :=
  C5_numeric_key_order.1 ["r"] ["r"]
    (.present [⟨"video10", true, [⟨"case1.html", true⟩]⟩,
      ⟨"video9", true, [⟨"case1.html", true⟩]⟩]) .absent _ rfl

/-- Claim C6: a base path that does not exist (`exists()` is false) or is
not a directory (`glob`'s `is_dir` pre-check yields an empty listing)
makes the scan return an empty mapping, without signalling an error. -/
theorem C6_missing_base_empty (base : List String) (st : BaseState)
    (h : st = BaseState.absent ∨ st = BaseState.nonDir) :
    scan_language base st = .ok [] := by
  rcases h with rfl | rfl <;> rfl

/-- Witness for C6 at a concrete base path and state. -/
theorem C6_missing_base_empty_witness :
    scan_language ["r", "result", "result_ja", "html"] BaseState.absent = .ok [] :=
  C6_missing_base_empty ["r", "result", "result_ja", "html"] BaseState.absent
    (Or.inl rfl)

/-- Counterexample to claim C7: the file `CASE1.HTML` matches the
case-insensitive `case<digits>.html` pattern (second conjunct: the model
of `CASE_FILE_RE.search` succeeds with case number 1), yet the scan
produces no record for it, because the `glob("case*.html")` prefilter is
case-sensitive and rejects the name before the regex ever runs. -/
theorem C7_counterexample :
    scan_language ["a", "b"] (.present [⟨"video1", true, [⟨"CASE1.HTML", true⟩]⟩])
      = .ok []
    ∧ caseSearch "CASE1.HTML".data = some 1 :=
  ⟨rfl, rfl⟩

/-- Claim C7 (amended): a regular file inside a video directory yields a
record iff it passes the case-sensitive glob `case*.html` (literal
lowercase `case` head and `.html` tail) and the case-insensitive
`case<digits>.html` regex search; here the inclusion direction: any
regular file passing both filters contributes a record carrying its parsed
case number and on-disk filename. -/
theorem C7_amended (base : List String) (vname : String) (files : List FileEnt)
    (f : FileEnt) (n : Nat) (hmem : f ∈ files) (hf : f.isFile = true)
    (hg : globCaseHtml f.name = true) (hc : caseSearch f.name.data = some n) :
    ∃ r ∈ scanFiles base vname files, r.caseNum = n ∧ r.filename = f.name :=
  ⟨CaseRec.mk n f.name (relpathOf base vname f.name),
    mem_scanFiles_of base vname files f n hmem hf hg hc, rfl, rfl⟩

/-- Witness for the amended C7: `caseCASE2.html` passes the lowercase glob
and the case-insensitive regex matches its inner `CASE2.html` run, so it
is indexed with case number 2. -/
theorem C7_amended_witness :
    ∃ r ∈ scanFiles ["a", "b"] "video1" [⟨"caseCASE2.html", true⟩],
      r.caseNum = 2 ∧ r.filename = FileEnt.name ⟨"caseCASE2.html", true⟩ :=
  C7_amended ["a", "b"] "video1" [⟨"caseCASE2.html", true⟩]
    ⟨"caseCASE2.html", true⟩ 2 (by decide) (by decide) (by decide) (by decide)

/-- Counterexample to claim C8: the directory `videos_video3` violates the
claimed `video<digits>` convention (the five characters after its
`video` head are not a digit run — third conjunct), yet it is not ignored:
it contributes video group 3, because `VIDEO_DIR_RE` is applied with
`search`, which accepts a match starting anywhere in the name. -/
theorem C8_counterexample :
    scan_language ["a", "b"] (.present [⟨"videos_video3", true, [⟨"case1.html", true⟩]⟩])
      = .ok [(3, [⟨1, "case1.html", "a/b/videos_video3/case1.html"⟩])]
    ∧ globVideo "videos_video3" = true
    ∧ ("videos_video3".data.drop 5).all Char.isDigit = false :=
  ⟨rfl, rfl, rfl⟩

/-- Claim C8 (amended): a subdirectory contributes a video group only if
its name starts with the literal lowercase `video` (the glob) and the
regex search finds `video` followed by a digit run ending the name; names
whose digit run does not end the name (e.g. `video3x`, second conjunct)
are ignored, but extra characters between the leading `video` and the
matched `video<digits>` tail (e.g. `videos_video3`) are accepted. -/
theorem C8_amended :
    (∀ (base : List String) (entries : List DirEnt) (v : Nat) (recs : List CaseRec),
        (v, recs) ∈ scanEntries base entries →
        ∃ e, e ∈ entries ∧ e.isDir = true ∧ globVideo e.name = true ∧
          videoSearch e.name.data = some v)
    ∧ scanEntries ["a", "b"] [⟨"video3x", true, [⟨"case1.html", true⟩]⟩] = [] := by
  constructor
  · intro base entries v recs h
    obtain ⟨e, h1, h2, h3, h4, _, _⟩ := mem_scanEntries_inv base entries (v, recs) h
    exact ⟨e, h1, h2, h3, h4⟩
  · rfl

/-- Witness for the universally quantified part of C8. -/
theorem C8_amended_witness :
    ∃ e, e ∈ [DirEnt.mk "videos_video3" true [⟨"case1.html", true⟩]]
      ∧ e.isDir = true ∧ globVideo e.name = true
      ∧ videoSearch e.name.data = some 3 :=
  C8_amended.1 ["a", "b"] [DirEnt.mk "videos_video3" true [⟨"case1.html", true⟩]] 3
    [⟨1, "case1.html", "a/b/videos_video3/case1.html"⟩] (by decide)

/-- Counterexample to claim C9: a run that fails during scanning (here the
English scan raises an uncaught OSError) has already created the parent
directories of `--out`, because `out_path.parent.mkdir(parents=True,
exist_ok=True)` runs before either scan; so its side effects are not
limited to a (possibly partial) write at `--out`. -/
theorem C9_counterexample :
    (mainEffects ["r", "be"] ["r", "bj"] ["r", "result", "index.json"]
        BaseState.faulty BaseState.absent).2 = false
    ∧ ¬ (∀ e ∈ (mainEffects ["r", "be"] ["r", "bj"] ["r", "result", "index.json"]
          BaseState.faulty BaseState.absent).1,
        e = FsEffect.writeFile ["r", "result", "index.json"]) := by
  refine ⟨rfl, fun h => ?_⟩
  have hm := h (FsEffect.mkdirParents ["r", "result"]) (by simp [mainEffects, scan_language, parentPath])
  cases hm

/-- Claim C9 (amended): a failed run's only side effects are the creation
of `--out`'s parent directories (which happens before scanning) and, had
the failure occurred during the write itself, a possibly partial write at
`--out`; with the failure during scanning, the effect trace is exactly the
`mkdir` of the output's parent. -/
theorem C9_amended (baseEn baseJa outPath : List String) (stEn stJa : BaseState)
    (h : (mainEffects baseEn baseJa outPath stEn stJa).2 = false) :
    (mainEffects baseEn baseJa outPath stEn stJa).1
      = [FsEffect.mkdirParents (parentPath outPath)] := by
  cases stEn <;> cases stJa <;>
    first
      | rfl
      | (exfalso; simp [mainEffects, scan_language] at h)

/-- Witness for the amended C9 at a concrete failing run. -/
theorem C9_amended_witness :
    (mainEffects ["r", "be"] ["r", "bj"] ["r", "result", "index.json"]
        BaseState.faulty BaseState.absent).1
      = [FsEffect.mkdirParents ["r", "result"]] :=
  C9_amended ["r", "be"] ["r", "bj"] ["r", "result", "index.json"]
    BaseState.faulty BaseState.absent rfl

/-- Claim C10: when two distinct subdirectories (`d1`, `d2`, with `d1`
before `d2` in lexicographic name order) parse to the same video number
and both contain matching case files, the scan keeps only the case
records of the lexicographically last directory: the dict assignment for
the later directory overwrites the earlier one, so the mapping's sole
entry for that number holds `d2`'s records and `d1`'s records appear
nowhere. -/
theorem C10_last_dir_wins (base : List String) (entries : List DirEnt)
    (d1 d2 : DirEnt) (v : Nat)
    (hnd : (entries.map (fun e => e.name)).Nodup)
    (h1 : d1 ∈ entries) (h2 : d2 ∈ entries)
    (hd1 : d1.isDir = true) (hd2 : d2.isDir = true)
    (hg1 : globVideo d1.name = true) (hg2 : globVideo d2.name = true)
    (hv1 : videoSearch d1.name.data = some v)
    (hv2 : videoSearch d2.name.data = some v)
    (hlt : clLt d1.name.data d2.name.data = true)
    (hne1 : (scanFiles base d1.name d1.files).isEmpty = false)
    (hne2 : (scanFiles base d2.name d2.files).isEmpty = false)
    (honly : ∀ e ∈ entries, e.isDir = true → videoSearch e.name.data = some v →
        e = d1 ∨ e = d2) :
    lookupV v (scanEntries base entries) = some (scanFiles base d2.name d2.files)
    ∧ ∀ recs, (v, recs) ∈ scanEntries base entries →
        recs = scanFiles base d2.name d2.files := by
  have hEntNd : entries.Nodup := List.Nodup.of_map _ hnd
  set P := sortLe (fun a b : DirEnt => strLeB a.name b.name)
    (entries.filter (fun e => globVideo e.name)) with hP
  have hPnd : P.Nodup :=
    ((perm_sortLe _ _).nodup_iff).mpr (List.Nodup.filter _ hEntNd)
  have hPsorted : P.Pairwise (fun a b => strLeB a.name b.name = true) :=
    sorted_sortLe _ (strLeBOn_total (fun e : DirEnt => e.name))
      (strLeBOn_trans (fun e : DirEnt => e.name)) _
  have hPd2 : d2 ∈ P := by
    rw [hP]
    exact (mem_sortLe _ _ d2).mpr (List.mem_filter.mpr ⟨h2, hg2⟩)
  obtain ⟨A, B, hAB⟩ := List.append_of_mem hPd2
  have hBnone : ∀ e ∈ B, contribV base v e = none := by
    intro e heB
    by_contra hcon
    obtain ⟨hed, hev⟩ := contribV_ne_none base v e hcon
    have heP : e ∈ P := by
      rw [hAB]
      exact List.mem_append.mpr (Or.inr (List.mem_cons_of_mem d2 heB))
    have heEnt : e ∈ entries := by
      rw [hP] at heP
      exact (List.mem_filter.mp ((mem_sortLe _ _ e).mp heP)).1
    have hsub : List.Sublist (d2 :: B) P := by
      rw [hAB]
      exact List.sublist_append_right A (d2 :: B)
    rcases honly e heEnt hed hev with rfl | rfl
    · have hpw : (d2 :: B).Pairwise (fun a b => strLeB a.name b.name = true) :=
        hPsorted.sublist hsub
      have hord : strLeB d2.name e.name = true := (List.pairwise_cons.mp hpw).1 e heB
      simp [strLeB, hlt] at hord
    · have hnd2 : (e :: B).Nodup := List.Nodup.sublist hsub hPnd
      exact (List.nodup_cons.mp hnd2).1 heB
  have hc2 : contribV base v d2 = some (scanFiles base d2.name d2.files) := by
    simp [contribV, hd2, hv2, hne2]
  have hlast : lastContrib base v P = some (scanFiles base d2.name d2.files) := by
    rw [hAB, lastContrib_append]
    have hd2B : lastContrib base v (d2 :: B)
        = some (scanFiles base d2.name d2.files) := by
      simp only [lastContrib, lastContrib_none base v B hBnone, hc2]
    rw [hd2B]
  have hscan : scanEntries base entries = P.foldl (scanStep base) [] := by
    rw [hP]
    rfl
  have hlook : lookupV v (scanEntries base entries)
      = some (scanFiles base d2.name d2.files) := by
    rw [hscan, lookupV_foldl_scanStep base v P [], hlast]
  refine ⟨hlook, ?_⟩
  intro recs hmemr
  have hl2 := lookupV_of_mem_keysNe _ (keysNe_scanEntries base entries) v recs hmemr
  rw [hlook] at hl2
  exact (Option.some.inj hl2).symm

/-- Witness for C10: `video01` and `video1` both parse to video 1; the
scan keeps only `video1`'s records (it sorts last lexicographically). -/
theorem C10_last_dir_wins_witness :
    lookupV 1 (scanEntries ["a", "b"]
        [⟨"video01", true, [⟨"case1.html", true⟩]⟩,
         ⟨"video1", true, [⟨"case7.html", true⟩]⟩])
      = some (scanFiles ["a", "b"] "video1" [⟨"case7.html", true⟩])
    ∧ ∀ recs, (1, recs) ∈ scanEntries ["a", "b"]
        [⟨"video01", true, [⟨"case1.html", true⟩]⟩,
         ⟨"video1", true, [⟨"case7.html", true⟩]⟩] →
        recs = scanFiles ["a", "b"] "video1" [⟨"case7.html", true⟩] :=
  C10_last_dir_wins ["a", "b"]
    [⟨"video01", true, [⟨"case1.html", true⟩]⟩,
     ⟨"video1", true, [⟨"case7.html", true⟩]⟩]
    ⟨"video01", true, [⟨"case1.html", true⟩]⟩
    ⟨"video1", true, [⟨"case7.html", true⟩]⟩ 1
    (by decide) (by decide) (by decide) (by decide) (by decide) (by decide)
    (by decide) (by decide) (by decide) (by decide) (by decide) (by decide)
    (by decide)

end BuildIndex
